import Mathlib

/-!
Shallow embedding of the wyrmhole-bot simulation core.

Part 1 embeds `src/xivsimbot/bot.py`: the virtual clock and the entity
registry (`SimState`, `Player`, `Enemy`, `Buff`, `Ability`).  Python floats
used for simulation time are modelled as exact rationals (`ℚ`); Python dicts
are modelled as partial maps `ℕ → Option V` (a `del` is setting the key to
`none`).  A Python operation that can raise (`del self.buffs[id]` raising
`KeyError` when the key is absent) is modelled as returning `Option`, with
`none` standing for the raised exception.  `time.time()` (the wall clock) is
passed in explicitly as a `now` argument to every method that reads it.

Part 2 embeds the movement interpolator of `src/xivsimbot/ai.py` over `ℝ`
(the code's float geometry, `math.sqrt` included, modelled exactly), and the
`consistent_shuffle` utility with the seeded PRNG shuffle abstracted as an
explicit deterministic function of the seed and the list.
-/

/-- Buff dataclass of bot.py: `id`, `deadline`. -/
structure Buff where
  id : ℕ
  deadline : ℚ
deriving DecidableEq

/-- Player dataclass of bot.py: identity plus transient fields, with the
dataclass defaults (`x = y = 0`, `angle = 0`, `moving = False`, empty buff
dict).  Positions are kept as `ℚ` (a Python variable can hold any number);
`update_player` is what truncates them to integers. -/
structure Player where
  id : ℕ
  name : String
  x : ℚ := 0
  y : ℚ := 0
  angle : ℚ := 0
  moving : Bool := false
  buffs : ℕ → Option Buff := fun _ => none

/-- Enemy dataclass of bot.py. -/
structure Enemy where
  id : ℕ
  name : String
  x : ℚ
  y : ℚ
  angle : ℚ

/-- Ability dataclass of bot.py. -/
structure Ability where
  id : ℕ
  name : String
  cast_deadline : ℚ
  gc_deadline : ℚ
deriving DecidableEq

/-- Python `int(q)` on a rational: truncation toward zero
(`int(2.7) = 2`, `int(-2.7) = -2`). -/
def pyInt (q : ℚ) : ℚ := ((if 0 ≤ q then ⌊q⌋ else ⌈q⌉ : ℤ) : ℚ)

namespace Player

/-- `Player.reset` from bot.py: zero position and angle, stop moving,
drop all buffs; `id` and `name` are untouched. -/
def reset (p : Player) : Player :=
  { p with x := 0, y := 0, angle := 0, moving := false, buffs := fun _ => none }

/-- `Player.add_buff` from bot.py: `self.buffs[id] = Buff(id=id, deadline=deadline)`. -/
def add_buff (p : Player) (i : ℕ) (deadline : ℚ) : Player :=
  { p with buffs := fun j => if j = i then some { id := i, deadline := deadline } else p.buffs j }

/-- `Player.remove_buff` from bot.py: `del self.buffs[id]`.  A `del` on a
missing key raises `KeyError`; that is the `none` result here. -/
def remove_buff (p : Player) (i : ℕ) : Option Player :=
  match p.buffs i with
  | none => none
  | some _ => some { p with buffs := fun j => if j = i then none else p.buffs j }

/-- `Player.has_buff` from bot.py: `id in self.buffs`. -/
def has_buff (p : Player) (i : ℕ) : Bool :=
  (p.buffs i).isSome

end Player

/-- `SimState` from bot.py: the three entity dicts plus the virtual-clock
scalars, with the constructor's initial values as defaults. -/
@[ext]
structure SimState where
  players : ℕ → Option Player := fun _ => none
  enemies : ℕ → Option Enemy := fun _ => none
  abilities : ℕ → Option Ability := fun _ => none
  pause_time : Option ℚ := none
  server_offset : ℚ := 0
  pause_offset : ℚ := 0

namespace SimState

/-- `SimState.reset`: drop all enemies, reset every player in place.
Abilities and the clock fields are not touched. -/
def reset (s : SimState) : SimState :=
  { s with
    enemies := fun _ => none
    players := fun pid => (s.players pid).map Player.reset }

/-- `SimState.time`: `pause_time` if paused, else
`time.time() - pause_offset - server_offset` (wall clock passed as `now`). -/
def time (s : SimState) (now : ℚ) : ℚ :=
  match s.pause_time with
  | some t => t
  | none => now - s.pause_offset - s.server_offset

/-- `SimState.pause`: `self.pause_time = self.time()`. -/
def pause (s : SimState) (now : ℚ) : SimState :=
  { s with pause_time := some (s.time now) }

/-- `SimState.unpause`: `self.pause_time = None; self.pause_offset = offset`. -/
def unpause (s : SimState) (offset : ℚ) : SimState :=
  { s with pause_time := none, pause_offset := offset }

/-- `SimState.add_player`: `self.players[pid] = Player(id=pid, name=name)`. -/
def add_player (s : SimState) (pid : ℕ) (name : String) : SimState :=
  { s with players := fun q =>
      if q = pid then some { id := pid, name := name } else s.players q }

/-- `SimState.update_player`: silently return if `pid` is unknown, else store
`int(x), int(y), angle, moving` on the player. -/
def update_player (s : SimState) (pid : ℕ) (x y angle : ℚ) (moving : Bool) : SimState :=
  match s.players pid with
  | none => s
  | some p =>
      { s with players := fun q =>
          if q = pid then
            some { p with x := pyInt x, y := pyInt y, angle := angle, moving := moving }
          else s.players q }

/-- `SimState.remove_player`: silently return if `pid` is unknown, else delete. -/
def remove_player (s : SimState) (pid : ℕ) : SimState :=
  match s.players pid with
  | none => s
  | some _ => { s with players := fun q => if q = pid then none else s.players q }

/-- `SimState.add_enemy`. -/
def add_enemy (s : SimState) (eid : ℕ) (name : String) (x y angle : ℚ) : SimState :=
  { s with enemies := fun q =>
      if q = eid then some { id := eid, name := name, x := x, y := y, angle := angle }
      else s.enemies q }

/-- `SimState.remove_enemy`: silently return if `eid` is unknown, else delete. -/
def remove_enemy (s : SimState) (eid : ℕ) : SimState :=
  match s.enemies eid with
  | none => s
  | some _ => { s with enemies := fun q => if q = eid then none else s.enemies q }

/-- `SimState.add_ability`: deadlines are derived from the clock. -/
def add_ability (s : SimState) (aid : ℕ) (name : String) (duration : ℚ) (now : ℚ) : SimState :=
  { s with abilities := fun q =>
      if q = aid then
        some { id := aid, name := name,
               cast_deadline := s.time now + duration,
               gc_deadline := s.time now + duration + 1 }
      else s.abilities q }

/-- `SimState.gc_abilities`: collect every ability with
`self.time() > abi.gc_deadline`, then delete the collected ids.  The clock
state is fixed during the call, so every `self.time()` read inside the loop
returns the same value. -/
def gc_abilities (s : SimState) (now : ℚ) : SimState :=
  { s with abilities := fun aid =>
      match s.abilities aid with
      | none => none
      | some abi => if s.time now > abi.gc_deadline then none else some abi }

end SimState

/-! ## ai.py: movement interpolator -/

/-- `MOVE_SPEED = 12500` units per second from ai.py. -/
noncomputable def MOVE_SPEED : ℝ := 12500

/-- `norm(vx, vy)` from ai.py: divide by `math.sqrt(vx**2 + vy**2)`. -/
noncomputable def norm (vx vy : ℝ) : ℝ × ℝ :=
  (vx / Real.sqrt (vx ^ 2 + vy ^ 2), vy / Real.sqrt (vx ^ 2 + vy ^ 2))

/-- The `while` loop of `BaseAiStrategy.go_to`, with the current position as
explicit state.  Each iteration of the Python loop first suspends for one
tick and then reads the clock; the per-iteration elapsed simulation times
`dt = t2 - t1` are passed in as the list `dts` (the run is observed for that
many ticks; the loop body matches the source line by line).  Each emitted
element is one `self.state.update_player(self.pid, ax, ay, angle, moving)`
call: the position pair and the `moving` flag (the angle argument is the
constant computed before the loop). -/
noncomputable def go_to_steps (tx ty dx dy : ℝ) : List ℝ → ℝ × ℝ → List ((ℝ × ℝ) × Bool)
  | [], _ => []
  | dt :: rest, a =>
    if a.1 = tx ∧ a.2 = ty then []
    else
      let dist := MOVE_SPEED * dt
      let rdist := Real.sqrt ((tx - a.1) ^ 2 + (ty - a.2) ^ 2)
      if dist ≤ rdist then
        ((a.1 + dx * dist, a.2 + dy * dist), true) ::
          go_to_steps tx ty dx dy rest (a.1 + dx * dist, a.2 + dy * dist)
      else
        ((tx, ty), false) :: go_to_steps tx ty dx dy rest (tx, ty)

/-- `BaseAiStrategy.go_to(bx, by)` from ai.py: return immediately when the
current position already equals the target, otherwise normalise the direction
vector once and run the interpolation loop.  `(ax, ay)` is the caller's
current position, `(tx, ty)` the target, `dts` the elapsed simulation time of
each tick. -/
noncomputable def go_to (ax ay tx ty : ℝ) (dts : List ℝ) : List ((ℝ × ℝ) × Bool) :=
  if ax = tx ∧ ay = ty then []
  else
    let d := norm (tx - ax) (ty - ay)
    go_to_steps tx ty d.1 d.2 dts (ax, ay)

/-- Unfolding equation for `norm` (stated because the bare name `norm` is
ambiguous with the library's `Norm.norm` inside tactics). -/
theorem norm_def (vx vy : ℝ) :
    norm vx vy = (vx / Real.sqrt (vx ^ 2 + vy ^ 2), vy / Real.sqrt (vx ^ 2 + vy ^ 2)) := rfl

/-- Straight-line distance from `(x, y)` to the target `(tx, ty)` — the
`rdist` quantity of the loop. -/
noncomputable def remDist (tx ty x y : ℝ) : ℝ :=
  Real.sqrt ((tx - x) ^ 2 + (ty - y) ^ 2)

/-! ## ai.py: consistent_shuffle -/

/-- The seed computed by `WyrmholeStrategy.consistent_shuffle`:
`sum((p + 3) * (i + 7) for i, p in enumerate(pids))`. -/
def shuffleSeed (pids : List ℕ) : ℕ :=
  (pids.enum.map (fun e => (e.2 + 3) * (e.1 + 7))).sum

/-- `WyrmholeStrategy.consistent_shuffle(pids)`: sort the id list in place,
derive the seed from the sorted list, then shuffle it with
`random.Random(seed).shuffle`.  The seeded Mersenne-Twister shuffle is a
deterministic pure function of the seed and the list it permutes; it is
abstracted here as the explicit argument `shuffle`.  Python's `list.sort` on
integers produces the unique sorted permutation, embedded as
`List.insertionSort`. -/
def consistent_shuffle (shuffle : ℕ → List ℕ → List ℕ) (pids : List ℕ) : List ℕ :=
  let sorted := pids.insertionSort (· ≤ ·)
  shuffle (shuffleSeed sorted) sorted

/-! ## Concrete states used by counterexamples and witnesses -/

/-- A paused clock state with a nonzero accumulated pause offset. -/
def pausedState : SimState := { pause_time := some 10, pause_offset := 5 }

/-- A fresh `SimState()` as built by the constructor. -/
def freshState : SimState := {}

/-- A player holding no buffs. -/
def barePlayer : Player := { id := 1, name := "p1" }

/-- The player-position integrality invariant: every registered player's
`x` and `y` fields are integer-valued rationals. -/
def intPositions (s : SimState) : Prop :=
  ∀ pid p, s.players pid = some p → p.x.den = 1 ∧ p.y.den = 1

/-! ## Claims about bot.py -/

/-- C2 counterexample: with `pause_offset = 5`, `unpause(3)` leaves
`pause_offset = 3`, not the previous value plus the correction (`8`):
`unpause` overwrites the accumulated offset instead of adding to it. -/
theorem unpause_not_additive :
    (pausedState.unpause 3).pause_offset = 3
    ∧ (pausedState.unpause 3).pause_offset ≠ pausedState.pause_offset + 3 := by
  constructor
  · rfl
  · intro h
    have h5 : pausedState.pause_offset = 5 := rfl
    rw [h5] at h
    norm_num [SimState.unpause] at h

/-- C2 (amended): `unpause(c)` clears the stored pause instant and sets the
accumulated pause offset to `c`, replacing (not adding to) its previous
value; the other clock fields are untouched. -/
theorem unpause_spec (s : SimState) (c : ℚ) :
    (s.unpause c).pause_time = none
    ∧ (s.unpause c).pause_offset = c
    ∧ (s.unpause c).server_offset = s.server_offset := by
  exact ⟨rfl, rfl, rfl⟩

/-- C3: one `gc_abilities` call removes exactly the abilities whose
`gc_deadline` is strictly below the clock reading at the call, keeps every
other ability unchanged, and a second call at the same clock reading changes
nothing. -/
theorem gc_abilities_exact (s : SimState) (now : ℚ) :
    (∀ aid, (s.gc_abilities now).abilities aid =
      match s.abilities aid with
      | none => none
      | some abi => if abi.gc_deadline < s.time now then none else some abi)
    ∧ (s.gc_abilities now).gc_abilities now = s.gc_abilities now := by
  constructor
  · intro aid
    simp only [SimState.gc_abilities, gt_iff_lt]
  · apply SimState.ext <;> try rfl
    funext aid
    simp only [SimState.gc_abilities, SimState.time]
    cases h : s.abilities aid with
    | none => rfl
    | some abi =>
        by_cases hlt :
            (match s.pause_time with
              | some t => t
              | none => now - s.pause_offset - s.server_offset) > abi.gc_deadline
        · simp [hlt]
        · simp [hlt]

/-- C4 counterexample: removing a buff the player does not hold is not a
silent no-op: `remove_buff` raises `KeyError` (modelled as `none`), rather
than returning the player unchanged. -/
theorem remove_buff_missing_raises :
    barePlayer.remove_buff 5 = none
    ∧ barePlayer.remove_buff 5 ≠ some barePlayer := by
  refine ⟨rfl, ?_⟩
  intro h
  simp [Player.remove_buff, barePlayer] at h

/-- C4 (amended): `update_player`, `remove_player` and `remove_enemy` on an
absent id leave the registry unchanged and raise no error, but `remove_buff`
for a buff id the player does not hold raises `KeyError` (here: returns
`none`) instead of being a no-op. -/
theorem stale_mutation_noop (s : SimState) (pid eid : ℕ) (x y angle : ℚ) (m : Bool)
    (p : Player) (i : ℕ)
    (hp : s.players pid = none) (he : s.enemies eid = none) (hb : p.buffs i = none) :
    s.update_player pid x y angle m = s
    ∧ s.remove_player pid = s
    ∧ s.remove_enemy eid = s
    ∧ p.remove_buff i = none := by
  refine ⟨?_, ?_, ?_, ?_⟩
  · simp [SimState.update_player, hp]
  · simp [SimState.remove_player, hp]
  · simp [SimState.remove_enemy, he]
  · simp [Player.remove_buff, hb]

/-- C4 witness: the no-op/raise behaviour at a concrete empty state and a
buff-less player. -/
theorem stale_mutation_noop_witness :
    (freshState.players 7 = none ∧ freshState.enemies 8 = none
      ∧ barePlayer.buffs 5 = none)
    ∧ (freshState.update_player 7 1 2 3 true = freshState
        ∧ freshState.remove_player 7 = freshState
        ∧ freshState.remove_enemy 8 = freshState
        ∧ barePlayer.remove_buff 5 = none) :=
  ⟨⟨rfl, rfl, rfl⟩, stale_mutation_noop freshState 7 8 1 2 3 true barePlayer 5 rfl rfl rfl⟩

/-- C5: while paused, `time()` returns the stored pause instant whatever the
wall clock says (the reading is frozen); while unpaused it returns
`now - pause_offset - server_offset`. -/
theorem time_spec (s : SimState) (now t : ℚ) :
    (s.pause_time = some t → ∀ now2 : ℚ, s.time now2 = t)
    ∧ (s.pause_time = none → s.time now = now - s.pause_offset - s.server_offset) := by
  constructor
  · intro h now2
    simp [SimState.time, h]
  · intro h
    simp [SimState.time, h]

/-- C5 witness: the paused state reports its pause instant at two different
wall-clock readings; the fresh state reports the offset-corrected wall
clock. -/
theorem time_spec_witness :
    (pausedState.pause_time = some 10 ∧ pausedState.time 42 = 10
      ∧ pausedState.time 1000 = 10)
    ∧ (freshState.pause_time = none ∧ freshState.time 42 = 42 - 0 - 0) :=
  ⟨⟨rfl, (time_spec pausedState 42 10).1 rfl 42, (time_spec pausedState 42 10).1 rfl 1000⟩,
   ⟨rfl, (time_spec freshState 42 10).2 rfl⟩⟩

/-- C8: `reset()` empties the enemy map, maps every registered player through
`Player.reset` (same ids registered before and after), leaves the abilities
map unchanged, and `Player.reset` zeroes the transient fields while keeping
`id` and `name`. -/
theorem reset_spec (s : SimState) (p : Player) :
    (∀ eid, (s.reset).enemies eid = none)
    ∧ (s.reset).abilities = s.abilities
    ∧ (∀ pid, (s.reset).players pid = (s.players pid).map Player.reset)
    ∧ (∀ pid, ((s.reset).players pid).isSome = ((s.players pid).isSome))
    ∧ (p.reset).id = p.id ∧ (p.reset).name = p.name
    ∧ (p.reset).x = 0 ∧ (p.reset).y = 0 ∧ (p.reset).angle = 0
    ∧ (p.reset).moving = false ∧ (∀ i, (p.reset).buffs i = none) := by
  refine ⟨fun _ => rfl, rfl, fun _ => rfl, fun pid => ?_,
    rfl, rfl, rfl, rfl, rfl, rfl, fun _ => rfl⟩
  cases h : s.players pid <;> simp [SimState.reset, h]

/-- C9: `update_player` stores `int(x)` and `int(y)`, so any player record it
writes has integer-valued position fields, and every player-map operation
(`add_player`, `update_player`, `remove_player`, `reset`) preserves the
invariant that all registered players have integer positions. -/
theorem positions_integral (s : SimState) (pid : ℕ) (nm : String) (x y angle : ℚ)
    (m : Bool) (hs : intPositions s) :
    (∀ q p, (s.update_player pid x y angle m).players q = some p →
        p.x.den = 1 ∧ p.y.den = 1 ∨ s.players q = some p)
    ∧ (∀ p, (s.update_player pid x y angle m).players pid = some p →
        s.players pid = none ∨ (p.x.den = 1 ∧ p.y.den = 1))
    ∧ intPositions (s.add_player pid nm)
    ∧ intPositions (s.update_player pid x y angle m)
    ∧ intPositions (s.remove_player pid)
    ∧ intPositions s.reset := by
  have hpy : ∀ q : ℚ, (pyInt q).den = 1 := by
    intro q
    unfold pyInt
    split <;> exact Rat.den_intCast _
  refine ⟨?_, ?_, ?_, ?_, ?_, ?_⟩
  · intro q p h
    unfold SimState.update_player at h
    cases hq : s.players pid with
    | none => right; rw [hq] at h; exact h
    | some p0 =>
        rw [hq] at h
        simp only at h
        by_cases hqq : q = pid
        · subst hqq; rw [if_pos rfl] at h
          left
          cases h
          exact ⟨hpy x, hpy y⟩
        · right; rwa [if_neg hqq] at h
  · intro p h
    unfold SimState.update_player at h
    cases hq : s.players pid with
    | none => left; rfl
    | some p0 =>
        rw [hq] at h
        simp only [if_pos rfl] at h
        right
        cases h
        exact ⟨hpy x, hpy y⟩
  · intro q p h
    unfold SimState.add_player at h
    simp only at h
    by_cases hqq : q = pid
    · rw [if_pos hqq] at h
      cases h
      exact ⟨rfl, rfl⟩
    · rw [if_neg hqq] at h
      exact hs q p h
  · intro q p h
    unfold SimState.update_player at h
    cases hq : s.players pid with
    | none => rw [hq] at h; exact hs q p h
    | some p0 =>
        rw [hq] at h
        simp only at h
        by_cases hqq : q = pid
        · rw [if_pos hqq] at h
          cases h
          exact ⟨hpy x, hpy y⟩
        · rw [if_neg hqq] at h
          exact hs q p h
  · intro q p h
    unfold SimState.remove_player at h
    cases hq : s.players pid with
    | none => rw [hq] at h; exact hs q p h
    | some p0 =>
        rw [hq] at h
        simp only at h
        by_cases hqq : q = pid
        · rw [if_pos hqq] at h; cases h
        · rw [if_neg hqq] at h
          exact hs q p h
  · intro q p h
    unfold SimState.reset at h
    simp only [Option.map_eq_some'] at h
    obtain ⟨p0, _, hp0⟩ := h
    subst hp0
    exact ⟨rfl, rfl⟩

/-- C9 witness: updating a registered player with the fractional position
`(5/2, -7/3)` stores integer coordinates, and the invariant holds of the
concrete resulting states. -/
theorem positions_integral_witness :
    intPositions (freshState.add_player 1 "p1")
    ∧ (∀ p, ((freshState.add_player 1 "p1").update_player 1 (5/2) (-7/3) 0 true).players 1
          = some p →
        (freshState.add_player 1 "p1").players 1 = none ∨ (p.x.den = 1 ∧ p.y.den = 1)) := by
  have h0 : intPositions freshState := by
    intro pid p h
    cases h
  have h1 := positions_integral freshState 1 "p1" (5/2) (-7/3) 0 true h0
  have h2 := positions_integral (freshState.add_player 1 "p1") 1 "p1"
      (5/2) (-7/3) 0 true h1.2.2.1
  exact ⟨h1.2.2.1, h2.2.1⟩

/-- C10: calling `pause()` while already paused rewrites `pause_time` with
the frozen `time()` reading, which is the stored pause instant itself, so
the whole clock state is unchanged. -/
theorem pause_idempotent (s : SimState) (now t : ℚ) (h : s.pause_time = some t) :
    s.pause now = s := by
  have ht : s.time now = t := by simp [SimState.time, h]
  unfold SimState.pause
  rw [ht, ← h]

/-- C10 witness: pausing the already-paused concrete state is the identity. -/
theorem pause_idempotent_witness :
    pausedState.pause_time = some 10 ∧ pausedState.pause 42 = pausedState :=
  ⟨rfl, pause_idempotent pausedState 42 10 rfl⟩

/-! ## Claims about ai.py: equal-position short-circuit and consistent_shuffle -/

/-- C6: `go_to` with start equal to target returns at once — it emits no
`update_player` call and consumes no tick — and `norm` applied to any
nonzero vector (the only way `go_to` calls it) yields a true unit vector,
so its division is by a nonzero length. -/
theorem go_to_equal_short_circuit (ax ay vx vy : ℝ) (dts : List ℝ)
    (hv : ¬(vx = 0 ∧ vy = 0)) :
    go_to ax ay ax ay dts = []
    ∧ (norm vx vy).1 ^ 2 + (norm vx vy).2 ^ 2 = 1 := by
  constructor
  · simp [go_to]
  · have hx : 0 ≤ vx ^ 2 := sq_nonneg vx
    have hy : 0 ≤ vy ^ 2 := sq_nonneg vy
    have hpos : 0 < vx ^ 2 + vy ^ 2 := by
      rcases not_and_or.mp hv with h | h
      · have h2 : vx ^ 2 ≠ 0 := pow_ne_zero 2 h
        have := lt_of_le_of_ne hx (Ne.symm h2)
        linarith
      · have h2 : vy ^ 2 ≠ 0 := pow_ne_zero 2 h
        have := lt_of_le_of_ne hy (Ne.symm h2)
        linarith
    have hs : Real.sqrt (vx ^ 2 + vy ^ 2) ^ 2 = vx ^ 2 + vy ^ 2 :=
      Real.sq_sqrt hpos.le
    rw [norm_def]
    simp only [div_pow, hs, div_add_div_same]
    exact div_self (ne_of_gt hpos)

/-- C6 witness: a concrete equal-position call emits nothing, and `norm`
on the concrete nonzero vector `(3, 4)` is a unit vector. -/
theorem go_to_equal_short_circuit_witness :
    ¬((3:ℝ) = 0 ∧ (4:ℝ) = 0)
    ∧ (go_to 1 2 1 2 [1] = []
        ∧ (norm 3 4).1 ^ 2 + (norm 3 4).2 ^ 2 = 1) :=
  ⟨by norm_num, go_to_equal_short_circuit 1 2 3 4 [1] (by norm_num)⟩

/-- C7: `consistent_shuffle` gives the same final ordering on any two input
lists that are permutations of each other, because it sorts before deriving
the seed and shuffling. -/
theorem consistent_shuffle_order_independent (shuffle : ℕ → List ℕ → List ℕ)
    (l1 l2 : List ℕ) (h : l1.Perm l2) :
    consistent_shuffle shuffle l1 = consistent_shuffle shuffle l2 := by
  have hsort : l1.insertionSort (· ≤ ·) = l2.insertionSort (· ≤ ·) :=
    List.eq_of_perm_of_sorted
      (((List.perm_insertionSort _ l1).trans h).trans (List.perm_insertionSort _ l2).symm)
      (List.sorted_insertionSort _ l1) (List.sorted_insertionSort _ l2)
  simp only [consistent_shuffle, hsort]

/-- C7 witness: the two presentations `[2, 1]` and `[1, 2]` of the same id
set shuffle identically (with a concrete deterministic shuffle function). -/
theorem consistent_shuffle_order_independent_witness :
    ([2, 1] : List ℕ).Perm [1, 2]
    ∧ consistent_shuffle (fun _ l => l) [2, 1] = consistent_shuffle (fun _ l => l) [1, 2] :=
  ⟨List.Perm.swap 1 2 [],
   consistent_shuffle_order_independent (fun _ l => l) [2, 1] [1, 2] (List.Perm.swap 1 2 [])⟩

/-! ## Movement interpolator: one-dimensional analysis of the loop

All reachable loop states lie on the segment from the start to the target:
the position is `(tx - r * dx, ty - r * dy)` where `(dx, dy)` is the unit
direction vector and `r` the remaining straight-line distance.  The loop is
re-expressed with `r` as explicit state, and `go_to_steps` is proved equal
to that re-expression. -/

/-- The interpolation loop with the remaining distance `r` as state;
provably equal to `go_to_steps` on segment states (`go_to_steps_eq_model`). -/
noncomputable def go_to_model (tx ty dx dy : ℝ) : List ℝ → ℝ → List ((ℝ × ℝ) × Bool)
  | [], _ => []
  | dt :: rest, r =>
    if r = 0 then []
    else if MOVE_SPEED * dt ≤ r then
      ((tx - (r - MOVE_SPEED * dt) * dx, ty - (r - MOVE_SPEED * dt) * dy), true) ::
        go_to_model tx ty dx dy rest (r - MOVE_SPEED * dt)
    else ((tx, ty), false) :: go_to_model tx ty dx dy rest 0

/-- Once the remaining distance is zero the loop guard fails at once. -/
theorem go_to_model_zero (tx ty dx dy : ℝ) (dts : List ℝ) :
    go_to_model tx ty dx dy dts 0 = [] := by
  cases dts <;> simp [go_to_model]

/-- A point of the segment equals the target exactly when the remaining
distance is zero (for a unit direction vector). -/
theorem onray_eq_target_iff (tx ty dx dy u : ℝ) (hu : dx ^ 2 + dy ^ 2 = 1) :
    (tx - u * dx = tx ∧ ty - u * dy = ty) ↔ u = 0 := by
  constructor
  · rintro ⟨h1, h2⟩
    by_contra h0
    have hx : u * dx = 0 := by linarith
    have hy : u * dy = 0 := by linarith
    have hdx : dx = 0 := by
      rcases mul_eq_zero.mp hx with h | h
      · exact absurd h h0
      · exact h
    have hdy : dy = 0 := by
      rcases mul_eq_zero.mp hy with h | h
      · exact absurd h h0
      · exact h
    rw [hdx, hdy] at hu
    norm_num at hu
  · intro h
    subst h
    constructor <;> ring

/-- On the segment, the `rdist` computed by the loop equals the remaining
distance parameter. -/
theorem remDist_on_ray (tx ty dx dy u : ℝ) (hu : dx ^ 2 + dy ^ 2 = 1) (h : 0 ≤ u) :
    remDist tx ty (tx - u * dx) (ty - u * dy) = u := by
  unfold remDist
  have hexp : (tx - (tx - u * dx)) ^ 2 + (ty - (ty - u * dy)) ^ 2 = u ^ 2 := by
    have : (tx - (tx - u * dx)) ^ 2 + (ty - (ty - u * dy)) ^ 2
        = u ^ 2 * (dx ^ 2 + dy ^ 2) := by ring
    rw [this, hu, mul_one]
  rw [hexp, Real.sqrt_sq h]

/-- `remDist` is zero only at the target itself. -/
theorem remDist_eq_zero (tx ty x y : ℝ) (h : remDist tx ty x y = 0) :
    x = tx ∧ y = ty := by
  unfold remDist at h
  have hnn : 0 ≤ (tx - x) ^ 2 + (ty - y) ^ 2 := by positivity
  have hz : (tx - x) ^ 2 + (ty - y) ^ 2 = 0 := by
    have := Real.sqrt_eq_zero hnn |>.mp h
    exact this
  have hx : (tx - x) ^ 2 = 0 := by nlinarith [sq_nonneg (tx - x), sq_nonneg (ty - y)]
  have hy : (ty - y) ^ 2 = 0 := by nlinarith [sq_nonneg (tx - x), sq_nonneg (ty - y)]
  constructor
  · have := pow_eq_zero_iff (n := 2) (by norm_num) |>.mp hx
    linarith
  · have := pow_eq_zero_iff (n := 2) (by norm_num) |>.mp hy
    linarith

/-- Refinement: on segment states, the source loop `go_to_steps` computes
exactly the one-dimensional `go_to_model`. -/
theorem go_to_steps_eq_model (tx ty dx dy : ℝ) (hu : dx ^ 2 + dy ^ 2 = 1) :
    ∀ (dts : List ℝ) (r : ℝ), 0 ≤ r →
      go_to_steps tx ty dx dy dts (tx - r * dx, ty - r * dy) =
        go_to_model tx ty dx dy dts r := by
  intro dts
  induction dts with
  | nil => intro r _; rfl
  | cons dt rest ih =>
      intro r hr
      by_cases hr0 : r = 0
      · subst hr0
        have hg : (tx - 0 * dx, ty - 0 * dy).1 = tx ∧ (tx - 0 * dx, ty - 0 * dy).2 = ty := by
          constructor <;> simp
        simp only [go_to_steps, go_to_model]
        rw [if_pos hg]
        simp
      · have hg : ¬((tx - r * dx, ty - r * dy).1 = tx ∧ (tx - r * dx, ty - r * dy).2 = ty) := by
          intro h
          exact hr0 ((onray_eq_target_iff tx ty dx dy r hu).mp h)
        have hrd : Real.sqrt ((tx - (tx - r * dx, ty - r * dy).1) ^ 2
            + (ty - (tx - r * dx, ty - r * dy).2) ^ 2) = r := by
          have := remDist_on_ray tx ty dx dy r hu hr
          unfold remDist at this
          exact this
        simp only [go_to_steps, go_to_model]
        rw [if_neg hg, if_neg hr0, hrd]
        by_cases hle : MOVE_SPEED * dt ≤ r
        · rw [if_pos hle, if_pos hle]
          have hfst : (tx - r * dx, ty - r * dy).1 + dx * (MOVE_SPEED * dt)
              = tx - (r - MOVE_SPEED * dt) * dx := by
            simp only
            ring
          have hsnd : (tx - r * dx, ty - r * dy).2 + dy * (MOVE_SPEED * dt)
              = ty - (r - MOVE_SPEED * dt) * dy := by
            simp only
            ring
          rw [hfst, hsnd]
          congr 1
          exact ih (r - MOVE_SPEED * dt) (by linarith)
        · rw [if_neg hle, if_neg hle]
          congr 1
          have := ih 0 le_rfl
          simpa using this

/-- With distinct start and target, the initial distance is positive. -/
theorem remDist_pos (ax ay tx ty : ℝ) (hne : ¬(ax = tx ∧ ay = ty)) :
    0 < remDist tx ty ax ay := by
  unfold remDist
  apply Real.sqrt_pos.mpr
  rcases not_and_or.mp hne with h | h
  · have h1 : tx - ax ≠ 0 := fun hc => h (by linarith)
    have h2 : 0 < (tx - ax) ^ 2 := lt_of_le_of_ne (sq_nonneg _) (Ne.symm (pow_ne_zero 2 h1))
    nlinarith [sq_nonneg (ty - ay)]
  · have h1 : ty - ay ≠ 0 := fun hc => h (by linarith)
    have h2 : 0 < (ty - ay) ^ 2 := lt_of_le_of_ne (sq_nonneg _) (Ne.symm (pow_ne_zero 2 h1))
    nlinarith [sq_nonneg (tx - ax)]

/-- The direction vector produced by `norm` for a run from `(ax, ay)` to a
distinct `(tx, ty)` is a unit vector. -/
theorem dir_unit (ax ay tx ty : ℝ) (hne : ¬(ax = tx ∧ ay = ty)) :
    ((tx - ax) / remDist tx ty ax ay) ^ 2 + ((ty - ay) / remDist tx ty ax ay) ^ 2 = 1 := by
  have hD2 : remDist tx ty ax ay ^ 2 = (tx - ax) ^ 2 + (ty - ay) ^ 2 := by
    unfold remDist
    exact Real.sq_sqrt (by positivity)
  have hDpos := remDist_pos ax ay tx ty hne
  rw [div_pow, div_pow, div_add_div_same, hD2]
  exact div_self (hD2 ▸ pow_ne_zero 2 (ne_of_gt hDpos))

/-- Along the model run the remaining distances of the emitted updates form
a strictly decreasing chain below the starting distance. -/
theorem go_to_model_chain (tx ty dx dy : ℝ) (hu : dx ^ 2 + dy ^ 2 = 1) :
    ∀ (dts : List ℝ) (r : ℝ), 0 < r → (∀ dt ∈ dts, 0 < dt) →
      List.Chain (fun a b2 => b2 < a) r
        ((go_to_model tx ty dx dy dts r).map (fun e => remDist tx ty e.1.1 e.1.2)) := by
  intro dts
  induction dts with
  | nil =>
      intro r _ _
      simp [go_to_model]
  | cons dt rest ih =>
      intro r hr hdt
      have hms : (0:ℝ) < MOVE_SPEED := by norm_num [MOVE_SPEED]
      have hdt0 : 0 < dt := hdt dt (by simp)
      have hstep : 0 < MOVE_SPEED * dt := mul_pos hms hdt0
      simp only [go_to_model, if_neg (ne_of_gt hr)]
      by_cases hle : MOVE_SPEED * dt ≤ r
      · rw [if_pos hle, List.map_cons]
        dsimp only
        rw [remDist_on_ray tx ty dx dy _ hu (by linarith)]
        apply List.Chain.cons
        · linarith
        · by_cases h0 : r - MOVE_SPEED * dt = 0
          · rw [h0, go_to_model_zero]
            simp
          · exact ih _ (lt_of_le_of_ne (by linarith) (Ne.symm h0))
              (fun x hx => hdt x (by simp [hx]))
      · rw [if_neg hle, go_to_model_zero, List.map_cons, List.map_nil]
        dsimp only
        have h0 : remDist tx ty tx ty = 0 := by
          have := remDist_on_ray tx ty dx dy 0 hu le_rfl
          simpa using this
        rw [h0]
        exact List.Chain.cons hr List.Chain.nil

/-- Per-tick characterization of the model run: pairing the previous
remaining distance with the emitted update and the tick's elapsed time, a
tick whose full step fits advances by exactly `MOVE_SPEED * dt` with the
moving flag set, and a tick whose step exceeds the remaining distance snaps
exactly onto the target with the flag cleared. -/
theorem go_to_model_step (tx ty dx dy : ℝ) (hu : dx ^ 2 + dy ^ 2 = 1) :
    ∀ (dts : List ℝ) (r : ℝ), 0 ≤ r →
      ∀ p ∈ (r :: (go_to_model tx ty dx dy dts r).map
            (fun e => remDist tx ty e.1.1 e.1.2)).zip
          ((go_to_model tx ty dx dy dts r).zip dts),
        (MOVE_SPEED * p.2.2 ≤ p.1 →
          remDist tx ty p.2.1.1.1 p.2.1.1.2 = p.1 - MOVE_SPEED * p.2.2 ∧ p.2.1.2 = true)
        ∧ (p.1 < MOVE_SPEED * p.2.2 →
          p.2.1.1.1 = tx ∧ p.2.1.1.2 = ty ∧ p.2.1.2 = false) := by
  intro dts
  induction dts with
  | nil =>
      intro r _ p hp
      simp [go_to_model] at hp
  | cons dt rest ih =>
      intro r hr p hp
      by_cases hr0 : r = 0
      · subst hr0
        rw [go_to_model_zero] at hp
        simp at hp
      · simp only [go_to_model, if_neg hr0] at hp
        by_cases hle : MOVE_SPEED * dt ≤ r
        · rw [if_pos hle, List.map_cons, List.zip_cons_cons, List.zip_cons_cons] at hp
          have hrw : remDist tx ty (tx - (r - MOVE_SPEED * dt) * dx)
              (ty - (r - MOVE_SPEED * dt) * dy) = r - MOVE_SPEED * dt :=
            remDist_on_ray tx ty dx dy _ hu (by linarith)
          rcases List.mem_cons.mp hp with hhead | htail
          · subst hhead
            dsimp only
            constructor
            · intro _
              exact ⟨hrw, rfl⟩
            · intro hcontra
              exact absurd hle (not_le.mpr hcontra)
          · dsimp only at htail
            rw [hrw] at htail
            exact ih (r - MOVE_SPEED * dt) (by linarith) p htail
        · rw [if_neg hle, go_to_model_zero, List.map_cons, List.map_nil,
            List.zip_cons_cons, List.zip_cons_cons, List.zip_nil_left,
            List.zip_nil_right] at hp
          rcases List.mem_cons.mp hp with hhead | htail
          · subst hhead
            dsimp only
            constructor
            · intro hcontra
              exact absurd hcontra hle
            · intro _
              exact ⟨rfl, rfl, rfl⟩
          · simp at htail

/-- Every emitted update except the last one has the moving flag set and a
position distinct from the target (the loop keeps running). -/
theorem go_to_model_flags (tx ty dx dy : ℝ) (hu : dx ^ 2 + dy ^ 2 = 1) :
    ∀ (dts : List ℝ) (r : ℝ), 0 ≤ r →
      ∀ i, i + 1 < (go_to_model tx ty dx dy dts r).length →
        ((go_to_model tx ty dx dy dts r).getD i ((tx, ty), false)).2 = true
        ∧ ¬(((go_to_model tx ty dx dy dts r).getD i ((tx, ty), false)).1.1 = tx
            ∧ ((go_to_model tx ty dx dy dts r).getD i ((tx, ty), false)).1.2 = ty) := by
  intro dts
  induction dts with
  | nil =>
      intro r _ i hi
      simp [go_to_model] at hi
  | cons dt rest ih =>
      intro r hr i hi
      by_cases hr0 : r = 0
      · subst hr0
        rw [go_to_model_zero] at hi
        simp at hi
      · by_cases hle : MOVE_SPEED * dt ≤ r
        · have hout : go_to_model tx ty dx dy (dt :: rest) r
              = ((tx - (r - MOVE_SPEED * dt) * dx, ty - (r - MOVE_SPEED * dt) * dy), true) ::
                go_to_model tx ty dx dy rest (r - MOVE_SPEED * dt) := by
            simp only [go_to_model, if_neg hr0, if_pos hle]
          rw [hout] at hi ⊢
          cases i with
          | zero =>
              have hne2 : r - MOVE_SPEED * dt ≠ 0 := by
                intro h0
                rw [h0, go_to_model_zero] at hi
                simp at hi
              rw [List.getD_cons_zero]
              constructor
              · rfl
              · intro hts
                exact hne2 ((onray_eq_target_iff tx ty dx dy _ hu).mp hts)
          | succ j =>
              rw [List.getD_cons_succ]
              rw [List.length_cons] at hi
              exact ih (r - MOVE_SPEED * dt) (by linarith) j (by omega)
        · have hout : go_to_model tx ty dx dy (dt :: rest) r = [((tx, ty), false)] := by
            simp only [go_to_model, if_neg hr0, if_neg hle, go_to_model_zero]
          rw [hout] at hi
          simp at hi

/-- Every emitted update with the moving flag cleared sits exactly on the
target. -/
theorem go_to_model_elem (tx ty dx dy : ℝ) (_hu : dx ^ 2 + dy ^ 2 = 1) :
    ∀ (dts : List ℝ) (r : ℝ), 0 ≤ r →
      ∀ e ∈ go_to_model tx ty dx dy dts r, e.2 = false → e.1.1 = tx ∧ e.1.2 = ty := by
  intro dts
  induction dts with
  | nil =>
      intro r _ e he
      simp [go_to_model] at he
  | cons dt rest ih =>
      intro r hr e he hf
      by_cases hr0 : r = 0
      · subst hr0
        rw [go_to_model_zero] at he
        simp at he
      · by_cases hle : MOVE_SPEED * dt ≤ r
        · have hout : go_to_model tx ty dx dy (dt :: rest) r
              = ((tx - (r - MOVE_SPEED * dt) * dx, ty - (r - MOVE_SPEED * dt) * dy), true) ::
                go_to_model tx ty dx dy rest (r - MOVE_SPEED * dt) := by
            simp only [go_to_model, if_neg hr0, if_pos hle]
          rw [hout] at he
          rcases List.mem_cons.mp he with hhead | htail
          · subst hhead
            simp at hf
          · exact ih (r - MOVE_SPEED * dt) (by linarith) e htail hf
        · have hout : go_to_model tx ty dx dy (dt :: rest) r = [((tx, ty), false)] := by
            simp only [go_to_model, if_neg hr0, if_neg hle, go_to_model_zero]
          rw [hout] at he
          rcases List.mem_singleton.mp he with hhead
          subst hhead
          exact ⟨rfl, rfl⟩

/-- With distinct start and target, `go_to` computes the one-dimensional
model started at the initial distance, with the unit direction vector
produced by `norm`. -/
theorem go_to_eq_model (ax ay tx ty : ℝ) (dts : List ℝ) (hne : ¬(ax = tx ∧ ay = ty)) :
    go_to ax ay tx ty dts
      = go_to_model tx ty ((tx - ax) / remDist tx ty ax ay)
          ((ty - ay) / remDist tx ty ax ay) dts (remDist tx ty ax ay) := by
  have hDpos := remDist_pos ax ay tx ty hne
  have hu := dir_unit ax ay tx ty hne
  have hDne : remDist tx ty ax ay ≠ 0 := ne_of_gt hDpos
  unfold go_to
  rw [if_neg hne, norm_def]
  dsimp only
  have hrd : Real.sqrt ((tx - ax) ^ 2 + (ty - ay) ^ 2) = remDist tx ty ax ay := rfl
  rw [hrd]
  have hstart : (ax, ay)
      = (tx - remDist tx ty ax ay * ((tx - ax) / remDist tx ty ax ay),
         ty - remDist tx ty ax ay * ((ty - ay) / remDist tx ty ax ay)) := by
    have h1 : remDist tx ty ax ay * ((tx - ax) / remDist tx ty ax ay) = tx - ax := by
      field_simp
    have h2 : remDist tx ty ax ay * ((ty - ay) / remDist tx ty ax ay) = ty - ay := by
      field_simp
    rw [h1, h2, show tx - (tx - ax) = ax by ring, show ty - (ty - ay) = ay by ring]
  rw [hstart]
  exact go_to_steps_eq_model tx ty _ _ hu dts (remDist tx ty ax ay) hDpos.le

/-- C1 (amended): for a movement command with distinct start and target and
positive elapsed simulation time at every tick, the remaining straight-line
distances of the positions passed to `update_player` are strictly
decreasing; each tick whose full step `MOVE_SPEED * dt` still fits within
the remaining distance advances by exactly that amount and is emitted with
`moving = true` (including the boundary tick whose step equals the remaining
distance exactly, which therefore lands exactly on the target with
`moving = true`); a tick whose step exceeds the remaining distance snaps
exactly onto the target with `moving = false`; every emitted update except
the last has `moving = true` and has not yet reached the target; and any
update with `moving = false`, or with remaining distance `0`, sits exactly
on the target. -/
theorem go_to_motion (ax ay tx ty : ℝ) (dts : List ℝ)
    (hne : ¬(ax = tx ∧ ay = ty)) (hdt : ∀ dt ∈ dts, 0 < dt) :
    List.Chain (fun a b2 => b2 < a) (remDist tx ty ax ay)
      ((go_to ax ay tx ty dts).map (fun e => remDist tx ty e.1.1 e.1.2))
    ∧ (∀ p ∈ (remDist tx ty ax ay ::
          (go_to ax ay tx ty dts).map (fun e => remDist tx ty e.1.1 e.1.2)).zip
          ((go_to ax ay tx ty dts).zip dts),
        (MOVE_SPEED * p.2.2 ≤ p.1 →
          remDist tx ty p.2.1.1.1 p.2.1.1.2 = p.1 - MOVE_SPEED * p.2.2 ∧ p.2.1.2 = true)
        ∧ (p.1 < MOVE_SPEED * p.2.2 →
          p.2.1.1.1 = tx ∧ p.2.1.1.2 = ty ∧ p.2.1.2 = false))
    ∧ (∀ i, i + 1 < (go_to ax ay tx ty dts).length →
        ((go_to ax ay tx ty dts).getD i ((tx, ty), false)).2 = true
        ∧ ¬(((go_to ax ay tx ty dts).getD i ((tx, ty), false)).1.1 = tx
            ∧ ((go_to ax ay tx ty dts).getD i ((tx, ty), false)).1.2 = ty))
    ∧ (∀ e ∈ go_to ax ay tx ty dts,
        (e.2 = false → e.1.1 = tx ∧ e.1.2 = ty)
        ∧ (remDist tx ty e.1.1 e.1.2 = 0 → e.1.1 = tx ∧ e.1.2 = ty)) := by
  have hDpos := remDist_pos ax ay tx ty hne
  have hu := dir_unit ax ay tx ty hne
  rw [go_to_eq_model ax ay tx ty dts hne]
  refine ⟨?_, ?_, ?_, ?_⟩
  · exact go_to_model_chain tx ty _ _ hu dts (remDist tx ty ax ay) hDpos hdt
  · exact go_to_model_step tx ty _ _ hu dts (remDist tx ty ax ay) hDpos.le
  · exact go_to_model_flags tx ty _ _ hu dts (remDist tx ty ax ay) hDpos.le
  · intro e he
    exact ⟨go_to_model_elem tx ty _ _ hu dts (remDist tx ty ax ay) hDpos.le e he,
           fun h0 => remDist_eq_zero tx ty e.1.1 e.1.2 h0⟩

/-- C1 witness: the amended movement property applied to the concrete run
from the origin to `(3, 4)` with one tick of `1/2500` seconds. -/
theorem go_to_motion_witness :
    (¬((0:ℝ) = 3 ∧ (0:ℝ) = 4)) ∧ (∀ dt ∈ ([1 / 2500] : List ℝ), 0 < dt)
    ∧ List.Chain (fun a b2 => b2 < a) (remDist 3 4 0 0)
        ((go_to 0 0 3 4 [1 / 2500]).map (fun e => remDist 3 4 e.1.1 e.1.2)) := by
  have h1 : ¬((0:ℝ) = 3 ∧ (0:ℝ) = 4) := by norm_num
  have h2 : ∀ dt ∈ ([1 / 2500] : List ℝ), 0 < dt := by
    intro dt h
    rw [List.mem_singleton] at h
    subst h
    norm_num
  exact ⟨h1, h2, (go_to_motion 0 0 3 4 [1 / 2500] h1 h2).1⟩

/-- C1 counterexample: starting at the origin with target `(3, 4)` (distance
`5`) and a single tick whose elapsed time is `1/2500` seconds (step
`MOVE_SPEED * dt = 5`, exactly the remaining distance), the run completes:
the one position passed to `update_player` is exactly the target — but its
`moving` flag is `true`, because the `rdist >= dist` branch is taken; so the
final emitted moving flag is not `false` as claimed. -/
theorem go_to_boundary_flag :
    go_to 0 0 3 4 [1 / 2500] = [((3, 4), true)]
    ∧ ¬((0:ℝ) = 3 ∧ (0:ℝ) = 4) ∧ (0:ℝ) < 1 / 2500 := by
  have hne : ¬((0:ℝ) = 3 ∧ (0:ℝ) = 4) := by norm_num
  have hD : remDist 3 4 (0:ℝ) 0 = 5 := by
    unfold remDist
    rw [show ((3:ℝ) - 0) ^ 2 + ((4:ℝ) - 0) ^ 2 = 5 ^ 2 by norm_num]
    exact Real.sqrt_sq (by norm_num)
  refine ⟨?_, hne, by norm_num⟩
  rw [go_to_eq_model 0 0 3 4 [1 / 2500] hne, hD]
  simp only [go_to_model]
  rw [if_neg (by norm_num : ¬(5:ℝ) = 0)]
  rw [if_pos (by norm_num [MOVE_SPEED] : MOVE_SPEED * (1 / 2500) ≤ (5:ℝ))]
  norm_num [MOVE_SPEED]
